import Mathlib

/-!
Verification of the blockchain node in `app.py` (single-file Flask app).

The development shallowly embeds the program:
* SHA-256 is implemented over byte lists (`Nat` values `< 256`), words are
  `Nat` reduced modulo `2 ^ 32`.
* Python's `json.dumps(block, sort_keys=True)` is embedded as `dumps` over a
  small JSON value type: objects render with keys sorted, separators are
  `", "` and `": "`, and strings are escaped as CPython's `json` module does
  with `ensure_ascii=True`.
* Timestamps and amounts are Python numbers stored in SQLite `REAL` columns;
  model values are integers (their JSON rendering is self-consistent, and no
  claim depends on float formatting).
-/

/-- `2 ^ 32`, the word modulus of SHA-256. -/
def M32 : Nat := 4294967296

/-- Right rotation of a 32-bit word (a `Nat < 2 ^ 32`). -/
def rotr (n x : Nat) : Nat := ((x >>> n) ||| (x <<< (32 - n))) % M32

def ssig0 (x : Nat) : Nat := (rotr 7 x) ^^^ (rotr 18 x) ^^^ (x >>> 3)

def ssig1 (x : Nat) : Nat := (rotr 17 x) ^^^ (rotr 19 x) ^^^ (x >>> 10)

def bsig0 (x : Nat) : Nat := (rotr 2 x) ^^^ (rotr 13 x) ^^^ (rotr 22 x)

def bsig1 (x : Nat) : Nat := (rotr 6 x) ^^^ (rotr 11 x) ^^^ (rotr 25 x)

def chF (e f g : Nat) : Nat := (e &&& f) ^^^ ((e ^^^ 4294967295) &&& g)

def majF (a b c : Nat) : Nat := (a &&& b) ^^^ (a &&& c) ^^^ (b &&& c)

/-- The 64 SHA-256 round constants (FIPS 180-4, in decimal). -/
def K64 : List Nat :=
  [1116352408, 1899447441, 3049323471, 3921009573, 961987163, 1508970993,
   2453635748, 2870763221, 3624381080, 310598401, 607225278, 1426881987,
   1925078388, 2162078206, 2614888103, 3248222580, 3835390401, 4022224774,
   264347078, 604807628, 770255983, 1249150122, 1555081692, 1996064986,
   2554220882, 2821834349, 2952996808, 3210313671, 3336571891, 3584528711,
   113926993, 338241895, 666307205, 773529912, 1294757372, 1396182291,
   1695183700, 1986661051, 2177026350, 2456956037, 2730485921, 2820302411,
   3259730800, 3345764771, 3516065817, 3600352804, 4094571909, 275423344,
   430227734, 506948616, 659060556, 883997877, 958139571, 1322822218,
   1537002063, 1747873779, 1955562222, 2024104815, 2227730452, 2361852424,
   2428436474, 2756734187, 3204031479, 3329325298]

/-- The SHA-256 initial hash state (in decimal). -/
def H0 : List Nat :=
  [1779033703, 3144134277, 1013904242, 2773480762,
   1359893119, 2600822924, 528734635, 1541459225]

/-- Big-endian 8-byte rendering of a length (in bits). -/
def lenBE8 (n : Nat) : List Nat :=
  [(n >>> 56) % 256, (n >>> 48) % 256, (n >>> 40) % 256, (n >>> 32) % 256,
   (n >>> 24) % 256, (n >>> 16) % 256, (n >>> 8) % 256, n % 256]

/-- SHA-256 padding: `0x80`, zeros to 56 mod 64, then the bit length. -/
def padBytes (m : List Nat) : List Nat :=
  m ++ 0x80 :: (List.replicate ((119 - m.length % 64) % 64) 0 ++ lenBE8 (8 * m.length))

/-- Group bytes into big-endian 32-bit words. -/
def toWords : List Nat → List Nat
  | a :: b :: c :: d :: rest => (((a * 256 + b) * 256 + c) * 256 + d) :: toWords rest
  | _ => []

/-- Split a word list into blocks of 16 words. -/
def chunk16 : List Nat → List (List Nat)
  | w0 :: w1 :: w2 :: w3 :: w4 :: w5 :: w6 :: w7 ::
    w8 :: w9 :: w10 :: w11 :: w12 :: w13 :: w14 :: w15 :: rest =>
      [w0, w1, w2, w3, w4, w5, w6, w7, w8, w9, w10, w11, w12, w13, w14, w15] :: chunk16 rest
  | _ => []

def getW (w : List Nat) (i : Nat) : Nat := w.getD i 0

/-- Extend a 16-word block by `n` scheduled words. -/
def schedExtend (w : List Nat) : Nat → List Nat
  | 0 => w
  | n + 1 =>
    schedExtend
      (w ++ [(ssig1 (getW w (w.length - 2)) + getW w (w.length - 7) +
              ssig0 (getW w (w.length - 15)) + getW w (w.length - 16)) % M32]) n

/-- One SHA-256 round on the 8-word working state. -/
def sha256Round (st : List Nat) (kw : Nat × Nat) : List Nat :=
  match st with
  | [a, b, c, d, e, f, g, h] =>
    let t1 := (h + bsig1 e + chF e f g + kw.1 + kw.2) % M32
    let t2 := (bsig0 a + majF a b c) % M32
    [(t1 + t2) % M32, a, b, c, (d + t1) % M32, e, f, g]
  | other => other

/-- Compress one 16-word block into the running hash state. -/
def compressBlock (h8 : List Nat) (blk : List Nat) : List Nat :=
  let w := schedExtend blk 48
  let fin := (K64.zip w).foldl sha256Round h8
  (h8.zip fin).map (fun p => (p.1 + p.2) % M32)

/-- UTF-8 encoding of a code point. -/
def utf8Bytes (c : Nat) : List Nat :=
  if c < 128 then [c]
  else if c < 2048 then [192 + c / 64, 128 + c % 64]
  else if c < 65536 then [224 + c / 4096, 128 + c / 64 % 64, 128 + c % 64]
  else [240 + c / 262144, 128 + c / 4096 % 64, 128 + c / 64 % 64, 128 + c % 64]

def flatCat : List (List Nat) → List Nat
  | [] => []
  | l :: ls => l ++ flatCat ls

/-- The UTF-8 bytes of a string (Python's `str.encode()`). -/
def strBytes (s : String) : List Nat := flatCat (s.data.map (fun c => utf8Bytes c.toNat))

/-- Lowercase hex digit. -/
def hexDigit (n : Nat) : Char := Char.ofNat (if n < 10 then 48 + n else 87 + n)

/-- Lowercase 8-hex-digit rendering of a 32-bit word. -/
def wordHex (w : Nat) : String :=
  String.mk [hexDigit ((w >>> 28) % 16), hexDigit ((w >>> 24) % 16),
             hexDigit ((w >>> 20) % 16), hexDigit ((w >>> 16) % 16),
             hexDigit ((w >>> 12) % 16), hexDigit ((w >>> 8) % 16),
             hexDigit ((w >>> 4) % 16), hexDigit (w % 16)]

/-- SHA-256 lowercase hex digest of a string, as `hashlib.sha256(...).hexdigest()`. -/
def sha256hex (s : String) : String :=
  String.join (((chunk16 (toWords (padBytes (strBytes s)))).foldl compressBlock H0).map wordHex)

/-! ### JSON values and `json.dumps(..., sort_keys=True)` -/

/-- A JSON value (the fragment the program serializes). -/
inductive JVal where
  | num (n : Int)
  | str (s : String)
  | arr (elems : List JVal)
  | obj (fields : List (String × JVal))

/-- Lowercase 4-hex-digit rendering for `\u` escapes. -/
def hex4 (n : Nat) : String :=
  String.mk [hexDigit ((n >>> 12) % 16), hexDigit ((n >>> 8) % 16),
             hexDigit ((n >>> 4) % 16), hexDigit (n % 16)]

/-- CPython `json` escaping of one character (`ensure_ascii=True`). -/
def escChar (c : Char) : String :=
  if c = Char.ofNat 34 then "\\\""
  else if c = Char.ofNat 92 then "\\\\"
  else if c = Char.ofNat 8 then "\\b"
  else if c = Char.ofNat 9 then "\\t"
  else if c = Char.ofNat 10 then "\\n"
  else if c = Char.ofNat 12 then "\\f"
  else if c = Char.ofNat 13 then "\\r"
  else if 32 ≤ c.toNat ∧ c.toNat ≤ 126 then String.singleton c
  else if c.toNat < 65536 then "\\u" ++ hex4 c.toNat
  else "\\u" ++ hex4 (55296 + (c.toNat - 65536) / 1024) ++
       "\\u" ++ hex4 (56320 + (c.toNat - 65536) % 1024)

/-- JSON string literal rendering. -/
def quoteJson (s : String) : String :=
  "\"" ++ String.join (s.data.map escChar) ++ "\""

def joinSep (sep : String) : List String → String
  | [] => ""
  | [x] => x
  | x :: y :: rest => x ++ sep ++ joinSep sep (y :: rest)

/-- Strict code-point lexicographic order on character lists: exactly how
Python compares the strings that `sort_keys=True` sorts by. -/
def ltCp : List Char → List Char → Bool
  | [], [] => false
  | [], _ :: _ => true
  | _ :: _, [] => false
  | a :: as, b :: bs =>
    if a.toNat < b.toNat then true
    else if b.toNat < a.toNat then false
    else ltCp as bs

/-- Non-strict key order on object fields derived from `ltCp`. -/
def keyLe (p q : String × JVal) : Prop := ltCp q.1.data p.1.data = false

/-- Strict key order on object fields. -/
def keyLt (p q : String × JVal) : Prop := ltCp p.1.data q.1.data = true

instance : DecidableRel keyLe := fun p q => instDecidableEqBool (ltCp q.1.data p.1.data) false

/-- Sort object fields by key (`sort_keys=True`): a stable sort ascending by
code-point order of the keys. -/
def sortKeys (l : List (String × JVal)) : List (String × JVal) :=
  List.insertionSort keyLe l

/-- Render a JSON value as `json.dumps(v, sort_keys=True)` does (default
separators `", "` and `": "`).  The fuel bounds nesting depth; every value
the program serializes has depth at most 4. -/
def dumpsF : Nat → JVal → String
  | 0, _ => ""
  | _ + 1, .num n => toString n
  | _ + 1, .str s => quoteJson s
  | fuel + 1, .arr elems => "[" ++ joinSep ", " (elems.map (dumpsF fuel)) ++ "]"
  | fuel + 1, .obj fields =>
      "\x7b" ++
        joinSep ", " ((sortKeys fields).map (fun p => quoteJson p.1 ++ ": " ++ dumpsF fuel p.2)) ++
      "\x7d"

def dumps (v : JVal) : String := dumpsF 16 v

/-! ### Data model

`Transaction` and `Block` are the dicts built by `app.py`; `BlockRow` and
`TxRow` are rows of the SQLite relations `blocks(idx, ts, proof,
previous_hash)` and `txs(block_idx, sender, recipient, amount)` in rowid
(insertion) order.  `State` bundles the `Blockchain` object's fields with the
durable store. -/

structure Tx where
  sender : String
  recipient : String
  amount : Int
deriving DecidableEq, Repr

structure Block where
  index : Int
  timestamp : Int
  transactions : List Tx
  proof : Int
  previous_hash : String
deriving DecidableEq, Repr

structure BlockRow where
  idx : Int
  ts : Int
  proof : Int
  previous_hash : String
deriving DecidableEq, Repr

structure TxRow where
  block_idx : Int
  sender : String
  recipient : String
  amount : Int
deriving DecidableEq, Repr

structure DB where
  blocks : List BlockRow
  txs : List TxRow
deriving DecidableEq, Repr

structure State where
  current_transactions : List Tx
  chain : List Block
  nodes : List String
  db : DB
deriving DecidableEq, Repr

def emptyDB : DB := ⟨[], []⟩

/-- `save_block`: `INSERT` the block's scalar row, then one `txs` row per
transaction (in list order), keyed by the block's `index`. -/
def save_block (db : DB) (block : Block) : DB :=
  { blocks := db.blocks ++ [⟨block.index, block.timestamp, block.proof, block.previous_hash⟩],
    txs := db.txs ++ block.transactions.map
      (fun t => ⟨block.index, t.sender, t.recipient, t.amount⟩) }

/-- `SELECT ... FROM blocks ORDER BY idx ASC`: a stable sort of the rows by
`idx` (SQLite leaves the relative order of equal keys unspecified; rowid
order is the model's choice). -/
def sortRows (rows : List BlockRow) : List BlockRow :=
  List.insertionSort (fun r s => r.idx ≤ s.idx) rows

/-- `load_chain_from_db`: blocks ordered by `idx` ascending, each block's
transactions pulled by `block_idx` in rowid (`id ASC`) order. -/
def load_chain_from_db (db : DB) : List Block :=
  (sortRows db.blocks).map (fun r =>
    { index := r.idx, timestamp := r.ts, proof := r.proof, previous_hash := r.previous_hash,
      transactions := (db.txs.filter (fun t => t.block_idx == r.idx)).map
        (fun t => ⟨t.sender, t.recipient, t.amount⟩) })

/-! ### The `Blockchain` class -/

/-- The JSON object for one transaction dict, in insertion order. -/
def txJson (t : Tx) : JVal :=
  .obj [("sender", .str t.sender), ("recipient", .str t.recipient), ("amount", .num t.amount)]

/-- The block dict's fields in the insertion order `new_block` builds them. -/
def blockFields (b : Block) : List (String × JVal) :=
  [("index", .num b.index), ("timestamp", .num b.timestamp),
   ("transactions", .arr (b.transactions.map txJson)),
   ("proof", .num b.proof), ("previous_hash", .str b.previous_hash)]

/-- `Blockchain.hash`: SHA-256 hex digest of
`json.dumps(block, sort_keys=True).encode()`. -/
def Blockchain.hash (block : Block) : String :=
  sha256hex (dumps (.obj (blockFields block)))

/-- `pattern.data` is a leading segment of the string's characters
(`str.startswith`). -/
def beginsWith : List Char → List Char → Bool
  | [], _ => true
  | _ :: _, [] => false
  | a :: ps, b :: ss => a == b && beginsWith ps ss

def strBegins (s pat : String) : Bool := beginsWith pat.data s.data

/-- `Blockchain.valid_proof`: the digest of the decimal concatenation
`f"{last_proof}{proof}"` begins with `"0000"`. -/
def Blockchain.valid_proof (last_proof proof : Int) : Bool :=
  strBegins (sha256hex (toString last_proof ++ toString proof)) "0000"

/-- `Blockchain.proof_of_work`: the loop `proof = 0; while not valid_proof:
proof += 1` denotes the least satisfying value on inputs where it
terminates. -/
def Blockchain.proof_of_work (last_proof : Int)
    (h : ∃ q : Nat, Blockchain.valid_proof last_proof (q : Int) = true) : Nat :=
  Nat.find h

/-- `Blockchain.new_transaction`: append to the pending pool, return
`last_block["index"] + 1` when the chain is non-empty and `1` otherwise. -/
def Blockchain.new_transaction (st : State) (sender recipient : String) (amount : Int) :
    Int × State :=
  let st2 : State :=
    { st with current_transactions := st.current_transactions ++ [⟨sender, recipient, amount⟩] }
  (match st.chain.getLast? with
   | some b => b.index + 1
   | none => 1, st2)

/-- `Blockchain.new_block`: builds the block dict with
`index = len(self.chain) + 1`, the whole pending pool as `transactions`, and
`previous_hash or self.hash(self.chain[-1])` (Python `or`: an omitted or
empty-string argument falls back to the hash of the last block).  Clears the
pool, appends to the chain, persists via `save_block`.  Returns `none` where
the source raises `IndexError` (fallback on an empty chain). -/
def Blockchain.new_block (st : State) (now : Int) (proof : Int)
    (previous_hash : Option String) : Option (Block × State) :=
  let given : Option String :=
    match previous_hash with
    | some s => if s = "" then none else some s
    | none => none
  let ph : Option String :=
    match given with
    | some s => some s
    | none => st.chain.getLast?.map Blockchain.hash
  match ph with
  | none => none
  | some p =>
    let block : Block :=
      { index := (st.chain.length : Int) + 1, timestamp := now,
        transactions := st.current_transactions, proof := proof, previous_hash := p }
    some (block,
      { st with current_transactions := [], chain := st.chain ++ [block],
                db := save_block st.db block })

/-- The `valid_chain` loop from a given `last_block`. -/
def Blockchain.valid_chain_from (last : Block) : List Block → Bool
  | [] => true
  | block :: rest =>
    if block.previous_hash ≠ Blockchain.hash last then false
    else if ! Blockchain.valid_proof last.proof block.proof then false
    else Blockchain.valid_chain_from block rest

/-- `Blockchain.valid_chain`: `False` on the empty list (`if not chain`
guard is absent in source; `chain[0]` on `[]` would raise, and the callers
guard with truthiness — the loop body is total: an empty list yields
`last_block = chain[0]` only when the chain is non-empty). -/
def Blockchain.valid_chain : List Block → Bool
  | [] => false
  | block :: rest => Blockchain.valid_chain_from block rest

/-- One peer's observable behaviour during `resolve_conflicts`: a network
error / timeout, or an HTTP response carrying optional `length` and `chain`
JSON fields. -/
inductive PeerResp where
  | err
  | ok (status : Int) (length : Option Int) (chain : Option (List Block))

/-- The `for node in neighbors` loop: `max_length` starts at the local chain
length, a qualifying response (`length` truthy, `chain` truthy,
`length > max_length`, `valid_chain(chain)`) becomes the new candidate. -/
def resolveLoop (max_length : Int) (new_chain : Option (List Block)) :
    List PeerResp → Option (List Block)
  | [] => new_chain
  | .err :: rest => resolveLoop max_length new_chain rest
  | .ok status length chain :: rest =>
    if status ≠ 200 then resolveLoop max_length new_chain rest
    else
      match length, chain with
      | some l, some c =>
        if l ≠ 0 ∧ c ≠ [] ∧ max_length < l ∧ Blockchain.valid_chain c = true then
          resolveLoop l (some c) rest
        else resolveLoop max_length new_chain rest
      | _, _ => resolveLoop max_length new_chain rest

/-- `Blockchain.resolve_conflicts`: scan the peers' responses; if a candidate
survived, replace `self.chain` and return `True`, else return `False`.  Note
that only `self.chain` is assigned — the pool, registry and durable store are
untouched. -/
def Blockchain.resolve_conflicts (st : State) (responses : List PeerResp) : Bool × State :=
  match resolveLoop (st.chain.length : Int) none responses with
  | some c => (true, { st with chain := c })
  | none => (false, st)

/-- The `/nodes/resolve` route: always an HTTP 200 with one of two
messages. -/
def consensus (st : State) (responses : List PeerResp) : Nat × String × State :=
  let r := Blockchain.resolve_conflicts st responses
  if r.1 then (200, "Our chain was replaced", r.2)
  else (200, "Our chain is authoritative", r.2)

/-- Startup: `init_db(); blockchain = Blockchain(); _db_chain =
load_chain_from_db()`; a non-empty persisted chain is adopted unchanged,
otherwise the genesis block `new_block(proof=100, previous_hash="1")` is
created and persisted. -/
def startup (db : DB) (now : Int) : Option State :=
  let st : State := { current_transactions := [], chain := [], nodes := [], db := db }
  let dbChain := load_chain_from_db db
  if dbChain ≠ [] then some { st with chain := dbChain }
  else (Blockchain.new_block st now 100 (some "1")).map (fun p => p.2)

/-! ### Reachable node states -/

/-- States a node reaches from a fresh start (empty persistence store)
through the operations the claims range over: recording a transaction,
mining a block (the code's mining paths call `new_block(proof)` with no
`previous_hash`), and conflict resolution against arbitrary peer
responses. -/
inductive Reachable : State → Prop where
  | boot : ∀ now st, startup emptyDB now = some st → Reachable st
  | tx : ∀ st sender recipient amount, Reachable st →
      Reachable (Blockchain.new_transaction st sender recipient amount).2
  | mine : ∀ st now proof block st2, Reachable st →
      Blockchain.new_block st now proof none = some (block, st2) → Reachable st2
  | resolve : ∀ st responses, Reachable st →
      Reachable (Blockchain.resolve_conflicts st responses).2

/-- Like `Reachable`, but without the `resolve` step. -/
inductive ReachableMine : State → Prop where
  | boot : ∀ now st, startup emptyDB now = some st → ReachableMine st
  | tx : ∀ st sender recipient amount, ReachableMine st →
      ReachableMine (Blockchain.new_transaction st sender recipient amount).2
  | mine : ∀ st now proof block st2, ReachableMine st →
      Blockchain.new_block st now proof none = some (block, st2) → ReachableMine st2

/-- "Block at position `i` has index `i + 1`". -/
def SeqIdx (c : List Block) : Prop :=
  ∀ i, (h : i < c.length) → (c.get ⟨i, h⟩).index = (i : Int) + 1

/-- The spec's consecutive-pair condition for chain validity (§4.4). -/
def pairOK (prev cur : Block) : Prop :=
  cur.previous_hash = Blockchain.hash prev ∧ Blockchain.valid_proof prev.proof cur.proof = true

/-! ### Concrete blocks used by witnesses and counterexamples -/

/-- The genesis block a fresh node mints at (model) time 0. -/
def genesisB : Block := ⟨1, 0, [], 100, "1"⟩

/-- A block that seals `genesisB`: its `previous_hash` is
`Blockchain.hash genesisB` and `35293` is a proof-of-work for `100`. -/
def blockB2 : Block :=
  ⟨2, 0, [], 35293, "1eea62564c3792c0931dedc88a415bce77a46bedac09fed270a7f8accef22b10"⟩

/-- A fresh node's state right after startup at (model) time 0. -/
def freshState : State :=
  { current_transactions := [], chain := [genesisB], nodes := [],
    db := { blocks := [⟨1, 0, 100, "1"⟩], txs := [] } }

/-- A fetch that reached the peer and came back with HTTP 200; everything
else (`requests.RequestException`, non-200 status) is skipped by the
resolution loop. -/
def fetchOk : PeerResp → Bool
  | .err => false
  | .ok status _ _ => status == 200

/-- A response qualifying for adoption against local length `m`: successful
fetch, truthy `length` and `chain` fields, reported length strictly above
`m`, and a chain passing `valid_chain`. -/
def qualifies (m : Int) : PeerResp → Bool
  | .err => false
  | .ok status length chain =>
    status == 200 &&
    (match length, chain with
     | some l, some c =>
       decide (l ≠ 0) && decide (c ≠ []) && decide (m < l) && Blockchain.valid_chain c
     | _, _ => false)

/-- The `blocks` relation row `save_block` writes for a block. -/
def rowOf (b : Block) : BlockRow := ⟨b.index, b.timestamp, b.proof, b.previous_hash⟩

/-- The `txs` relation rows `save_block` writes for a block. -/
def txRowsOf (b : Block) : List TxRow :=
  b.transactions.map (fun t => ⟨b.index, t.sender, t.recipient, t.amount⟩)

/-- The block dict `new_block` constructs, given the `previous_hash` it
settles on. -/
def mintedBlock (st : State) (now proof : Int) (ph : String) : Block :=
  { index := (st.chain.length : Int) + 1, timestamp := now,
    transactions := st.current_transactions, proof := proof, previous_hash := ph }

set_option maxRecDepth 1000000

set_option maxHeartbeats 4000000

/-! ## Order theory for the code-point comparator -/

theorem uint32_toNat_inj {a b : UInt32} (h : a.toNat = b.toNat) : a = b := by
  cases a; cases b
  exact congrArg UInt32.mk (BitVec.eq_of_toNat_eq h)

theorem char_toNat_inj {a b : Char} (h : a.toNat = b.toNat) : a = b :=
  Char.eq_of_val_eq (uint32_toNat_inj h)

theorem str_data_inj {a b : String} (h : a.data = b.data) : a = b := by
  cases a; cases b
  exact congrArg String.mk h

theorem ltCp_asymm : ∀ {a b : List Char}, ltCp a b = true → ltCp b a = false
  | [], [], h => by simp [ltCp] at h
  | [], _ :: _, _ => rfl
  | _ :: _, [], h => by simp [ltCp] at h
  | x :: xs, y :: ys, h => by
    unfold ltCp at h ⊢
    split_ifs at h ⊢ with h1 h2 h3 h4 <;> first | rfl | omega | exact ltCp_asymm h | simp at h

theorem ltCp_conn : ∀ {a b : List Char}, ltCp a b = false → ltCp b a = false → a = b
  | [], [], _, _ => rfl
  | [], _ :: _, h, _ => by simp [ltCp] at h
  | _ :: _, [], _, h => by simp [ltCp] at h
  | x :: xs, y :: ys, h, h2 => by
    unfold ltCp at h h2
    split_ifs at h h2 with h1 h3 <;> first | simp at h | simp at h2 | skip
    have hxy : x = y := char_toNat_inj (by omega)
    rw [hxy, ltCp_conn h h2]

theorem ltCp_nil_right : ∀ (a : List Char), ltCp a [] = false
  | [] => rfl
  | _ :: _ => rfl

theorem ltCp_trans : ∀ {a b c : List Char},
    ltCp a b = true → ltCp b c = true → ltCp a c = true
  | a, [], _, h, _ => by rw [ltCp_nil_right a] at h; exact absurd h (by simp)
  | _, _ :: bs, [], _, h2 => by rw [ltCp_nil_right] at h2; exact absurd h2 (by simp)
  | [], _ :: _, _ :: _, _, _ => rfl
  | x :: xs, y :: ys, z :: zs, h, h2 => by
    unfold ltCp at h h2 ⊢
    split_ifs at h h2 ⊢ <;>
      first | rfl | omega | exact ltCp_trans h h2 | simp_all

instance : IsTotal (String × JVal) keyLe :=
  ⟨fun p q => by
    unfold keyLe
    cases hb : ltCp q.1.data p.1.data
    · exact Or.inl rfl
    · exact Or.inr (ltCp_asymm hb)⟩

instance : IsTrans (String × JVal) keyLe :=
  ⟨fun p q r h1 h2 => by
    unfold keyLe at h1 h2 ⊢
    cases hc : ltCp r.1.data p.1.data
    · rfl
    · exfalso
      cases hqr : ltCp q.1.data r.1.data
      · have hq : q.1.data = r.1.data := ltCp_conn hqr h2
        rw [← hq] at hc
        exact absurd hc (by simp [h1])
      · exact absurd (ltCp_trans hqr hc) (by simp [h1])⟩

instance : IsAntisymm (String × JVal) keyLt :=
  ⟨fun p q h1 h2 => absurd (ltCp_asymm h1) (by simp [keyLt] at h2 ⊢; simp [h2])⟩

theorem sorted_keyLt {l : List (String × JVal)} (hs : List.Sorted keyLe l)
    (hn : (l.map (fun p => p.1)).Nodup) : List.Sorted keyLt l := by
  have hne : l.Pairwise (fun p q => p.1 ≠ q.1) := List.pairwise_map.mp hn
  refine (hs.and hne).imp (fun {p q} h => ?_)
  obtain ⟨hle, hne⟩ := h
  unfold keyLe at hle
  unfold keyLt
  cases hpq : ltCp p.1.data q.1.data
  · exact absurd (str_data_inj (ltCp_conn hpq hle)) hne
  · rfl

/-- Two field lists that are permutations of each other with no duplicate
keys sort to the same list: key-sorted serialization is canonical. -/
theorem sortKeys_eq_of_perm {l1 l2 : List (String × JVal)} (h : l1.Perm l2)
    (hn : (l2.map (fun p => p.1)).Nodup) : sortKeys l1 = sortKeys l2 := by
  have hn1 : (l1.map (fun p => p.1)).Nodup := ((h.map (fun p => p.1)).nodup_iff).mpr hn
  have hp : List.Perm (sortKeys l1) (sortKeys l2) :=
    (List.perm_insertionSort keyLe l1).trans (h.trans (List.perm_insertionSort keyLe l2).symm)
  have hs1 : List.Sorted keyLt (sortKeys l1) :=
    sorted_keyLt (List.sorted_insertionSort keyLe l1)
      (((List.perm_insertionSort keyLe l1).map (fun p => p.1)).nodup_iff.mpr hn1)
  have hs2 : List.Sorted keyLt (sortKeys l2) :=
    sorted_keyLt (List.sorted_insertionSort keyLe l2)
      (((List.perm_insertionSort keyLe l2).map (fun p => p.1)).nodup_iff.mpr hn)
  exact List.eq_of_perm_of_sorted hp hs1 hs2

/-! ## Claim C6 -/

/-- C6: the block hash is canonical — serializing the block's five fields in
any in-memory insertion order (any permutation of the dict items) yields the
same sorted-key JSON text and hence the identical lowercase hex SHA-256
digest, so `hash` is a pure function of the field values alone. -/
theorem hash_canonical_of_field_order (b : Block) (l : List (String × JVal))
    (h : List.Perm l (blockFields b)) :
    sha256hex (dumps (JVal.obj l)) = Blockchain.hash b := by
  have hn : ((blockFields b).map (fun p => p.1)).Nodup := by
    simp [blockFields, List.Nodup]
  have hs := sortKeys_eq_of_perm h hn
  simp [Blockchain.hash, dumps, dumpsF, hs]

/-- Witness for C6: the genesis block's fields listed in reversed insertion
order hash identically. -/
theorem hash_canonical_of_field_order_witness :
    sha256hex (dumps (JVal.obj (blockFields genesisB).reverse)) = Blockchain.hash genesisB :=
  hash_canonical_of_field_order genesisB (blockFields genesisB).reverse
    (List.reverse_perm (blockFields genesisB))

/-! ## Claim C3 -/

theorem valid_chain_from_iff_chain (last : Block) :
    ∀ rest : List Block, Blockchain.valid_chain_from last rest = true ↔ List.Chain pairOK last rest
  | [] => by simp [Blockchain.valid_chain_from]
  | b :: rest => by
    rw [Blockchain.valid_chain_from]
    by_cases h1 : b.previous_hash = Blockchain.hash last
    · by_cases h2 : Blockchain.valid_proof last.proof b.proof = true
      · simp [h1, h2, List.chain_cons, pairOK, valid_chain_from_iff_chain b rest]
      · simp [h1, h2, List.chain_cons, pairOK]
    · simp [h1, List.chain_cons, pairOK]

theorem valid_chain_iff (c : List Block) :
    Blockchain.valid_chain c = true ↔ c ≠ [] ∧ List.Chain' pairOK c := by
  cases c with
  | nil => simp [Blockchain.valid_chain]
  | cons b rest =>
    simp [Blockchain.valid_chain, valid_chain_from_iff_chain, List.Chain']

/-- C3: `valid_chain` is `false` on the empty chain and otherwise `true` iff
every consecutive pair `(prev, cur)` satisfies
`cur.previous_hash = hash prev` and `valid_proof prev.proof cur.proof`.
Tampering with the `previous_hash` of any block at position `i ≥ 1` of a
valid chain makes `valid_chain` return `false`; tampering with the first
block's `previous_hash` (which no pair inspects directly) is also rejected
unless the altered first block collides with the original under
`Blockchain.hash` (last conjunct). -/
theorem valid_chain_pairs_and_tamper :
    (Blockchain.valid_chain [] = false) ∧
    (∀ c : List Block, Blockchain.valid_chain c = true ↔ c ≠ [] ∧ List.Chain' pairOK c) ∧
    (∀ (c : List Block), Blockchain.valid_chain c = true →
      ∀ (i : Nat) (hi : i < c.length), 1 ≤ i →
      ∀ b2 : Block, b2.previous_hash ≠ (c.get ⟨i, hi⟩).previous_hash →
        Blockchain.valid_chain (c.set i b2) = false) ∧
    (∀ (b0 b1 : Block) (rest : List Block),
      Blockchain.valid_chain (b0 :: b1 :: rest) = true →
      ∀ s, s ≠ b0.previous_hash →
        Blockchain.valid_chain ({ b0 with previous_hash := s } :: b1 :: rest) = true →
        Blockchain.hash { b0 with previous_hash := s } = Blockchain.hash b0) := by
  refine ⟨rfl, valid_chain_iff, ?_, ?_⟩
  · intro c hv i hi hpos b2 hs
    by_contra hne
    have ht : Blockchain.valid_chain (c.set i b2) = true := by
      revert hne
      cases Blockchain.valid_chain (c.set i b2) <;> simp
    obtain ⟨-, hch⟩ := (valid_chain_iff _).mp ht
    obtain ⟨-, hch0⟩ := (valid_chain_iff _).mp hv
    have e1 : i - 1 + 1 = i := by omega
    have hne1 : ¬ (i = i - 1) := by omega
    have hpair := (List.chain'_iff_get.mp hch) (i - 1)
      (by simp only [List.length_set]; omega)
    have hpair0 := (List.chain'_iff_get.mp hch0) (i - 1) (by omega)
    simp only [List.get_eq_getElem, e1] at hpair hpair0
    simp only [List.getElem_set, hne1, if_false, if_pos rfl, ite_true, ite_false] at hpair
    simp only [List.get_eq_getElem] at hs
    exact hs (hpair.1.trans hpair0.1.symm)
  · intro b0 b1 rest hv s hs ht
    obtain ⟨-, hch⟩ := (valid_chain_iff _).mp ht
    obtain ⟨-, hch0⟩ := (valid_chain_iff _).mp hv
    have h1 : pairOK { b0 with previous_hash := s } b1 := (List.chain'_cons.mp hch).1
    have h0 : pairOK b0 b1 := (List.chain'_cons.mp hch0).1
    exact h1.1.symm.trans h0.1

/-- Witness for C3: the concrete valid 2-block chain `[genesisB, blockB2]`
with the second block's `previous_hash` tampered to `"x"` is rejected. -/
theorem valid_chain_pairs_and_tamper_witness :
    Blockchain.valid_chain
      ([genesisB, blockB2].set 1 { blockB2 with previous_hash := "x" }) = false :=
  valid_chain_pairs_and_tamper.2.2.1 [genesisB, blockB2] (by decide) 1 (by decide)
    (by decide) { blockB2 with previous_hash := "x" } (by decide)

/-! ## Claim C4 -/

/-- C4: whenever some proof of work exists for `last_proof`, `proof_of_work`
(the `while` loop searching `0, 1, 2, …`) returns the smallest non-negative
`q` with `valid_proof last_proof q`, where `valid_proof p q` holds exactly
when the SHA-256 hex digest of the decimal concatenation of `p` and `q`
begins with `"0000"` (definitional last conjunct). -/
theorem proof_of_work_least (p : Int)
    (h : ∃ q : Nat, Blockchain.valid_proof p (q : Int) = true) :
    (Blockchain.valid_proof p ((Blockchain.proof_of_work p h : Nat) : Int) = true ∧
     ∀ m : Nat, m < Blockchain.proof_of_work p h →
       Blockchain.valid_proof p ((m : Nat) : Int) = false) ∧
    (∀ a b : Int, Blockchain.valid_proof a b =
      strBegins (sha256hex (toString a ++ toString b)) "0000") := by
  refine ⟨⟨Nat.find_spec h, fun m hm => ?_⟩, fun a b => rfl⟩
  have := Nat.find_min h hm
  revert this
  cases Blockchain.valid_proof p ((m : Nat) : Int) <;> simp

/-- Witness for C4: `35293` is a proof of work for `100`, so the searched
solution for `100` is itself valid. -/
theorem proof_of_work_least_witness :
    Blockchain.valid_proof 100 ((Blockchain.proof_of_work 100 ⟨35293, by decide⟩ : Nat) : Int)
      = true :=
  (proof_of_work_least 100 ⟨35293, by decide⟩).1.1

/-! ## Claim C10 -/

/-- C10: `resolve_conflicts` trusts the peer's self-reported `length` field,
not the actual block count.  A peer response whose chain is the single valid
block `⟨7, 0, [], 1, "z"⟩` (no more blocks than the local one-block chain)
but whose reported length is `5 > 1` is adopted: the local chain is replaced
and `True` is returned. -/
theorem resolve_trusts_reported_length :
    Blockchain.valid_chain [⟨7, 0, [], 1, "z"⟩] = true ∧
    [(⟨7, 0, [], 1, "z"⟩ : Block)].length ≤ freshState.chain.length ∧
    (freshState.chain.length : Int) < 5 ∧
    Blockchain.resolve_conflicts freshState [.ok 200 (some 5) (some [⟨7, 0, [], 1, "z"⟩])] =
      (true, { freshState with chain := [⟨7, 0, [], 1, "z"⟩] }) :=
  ⟨rfl, by decide, by decide, by decide⟩

/-! ## Claim C8 -/

theorem resolveLoop_filter (responses : List PeerResp) :
    ∀ (m : Int) (best : Option (List Block)),
      resolveLoop m best (responses.filter fetchOk) = resolveLoop m best responses := by
  induction responses with
  | nil => intro m best; rfl
  | cons r rest ih =>
    intro m best
    cases r with
    | err => simpa [List.filter, fetchOk, resolveLoop] using ih m best
    | ok status length chain =>
      by_cases h : status = 200
      · subst h
        have h200 : ¬ ((200 : Int) ≠ 200) := by omega
        simp only [List.filter, fetchOk, beq_self_eq_true, ite_true, if_true, resolveLoop,
          if_neg h200]
        cases length with
        | none => exact ih m best
        | some l =>
          cases chain with
          | none => exact ih m best
          | some c =>
            by_cases hq : l ≠ 0 ∧ c ≠ [] ∧ m < l ∧ Blockchain.valid_chain c = true
            · simp only [if_pos hq]; exact ih l (some c)
            · simp only [if_neg hq]; exact ih m best
      · have hb : (status == 200) = false := by simp [h]
        simp only [List.filter, fetchOk, hb, resolveLoop, if_pos h]
        exact ih m best

theorem resolveLoop_none_of_no_qual (m : Int) :
    ∀ responses : List PeerResp,
      (∀ r ∈ responses, qualifies m r = false) →
      resolveLoop m none responses = none := by
  intro responses
  induction responses with
  | nil => intro _; rfl
  | cons r rest ih =>
    intro h
    have hr := h r (by simp)
    have hrest : ∀ x ∈ rest, qualifies m x = false := fun x hx => h x (by simp [hx])
    cases r with
    | err => exact ih hrest
    | ok status length chain =>
      simp only [resolveLoop]
      by_cases hst : status = 200
      · subst hst
        have h200 : ¬ ((200 : Int) ≠ 200) := by omega
        simp only [if_neg h200]
        cases length with
        | none => exact ih hrest
        | some l =>
          cases chain with
          | none => exact ih hrest
          | some c =>
            have : ¬ (l ≠ 0 ∧ c ≠ [] ∧ m < l ∧ Blockchain.valid_chain c = true) := by
              simp only [qualifies, beq_self_eq_true, true_and] at hr
              intro ⟨h1, h2, h3, h4⟩
              simp [h1, h2, h3, h4] at hr
            simp only [if_neg this]
            exact ih hrest
      · simp only [if_pos hst]
        exact ih hrest

/-- C8: failed or non-200 peer fetches are skipped without affecting the
outcome (filtering them away leaves the loop's result unchanged); when no
peer response qualifies against the local chain length, `resolve_conflicts`
returns `false` with the state — chain, pending pool, node registry and
durable store — exactly unchanged; the pool and registry are never touched
by resolution; and the `/nodes/resolve` endpoint always answers HTTP 200
with either the "replaced" or the "authoritative" message. -/
theorem resolve_error_handling :
    (∀ (m : Int) (best : Option (List Block)) (responses : List PeerResp),
      resolveLoop m best (responses.filter fetchOk) = resolveLoop m best responses) ∧
    (∀ (st : State) (responses : List PeerResp),
      (∀ r ∈ responses, qualifies (st.chain.length : Int) r = false) →
      Blockchain.resolve_conflicts st responses = (false, st)) ∧
    (∀ (st : State) (responses : List PeerResp),
      (Blockchain.resolve_conflicts st responses).2.current_transactions =
        st.current_transactions ∧
      (Blockchain.resolve_conflicts st responses).2.nodes = st.nodes) ∧
    (∀ (st : State) (responses : List PeerResp),
      (consensus st responses).1 = 200 ∧
      ((consensus st responses).2.1 = "Our chain was replaced" ∨
       (consensus st responses).2.1 = "Our chain is authoritative")) := by
  refine ⟨fun m best responses => resolveLoop_filter responses m best, ?_, ?_, ?_⟩
  · intro st responses h
    simp [Blockchain.resolve_conflicts, resolveLoop_none_of_no_qual _ responses h]
  · intro st responses
    unfold Blockchain.resolve_conflicts
    cases resolveLoop (st.chain.length : Int) none responses <;> simp
  · intro st responses
    unfold consensus
    cases h : (Blockchain.resolve_conflicts st responses).1 <;> simp [h]

/-- Witness for C8: a dead peer and a 404 peer leave a fresh node
untouched: resolution reports `false` with the state unchanged. -/
theorem resolve_error_handling_witness :
    Blockchain.resolve_conflicts freshState [PeerResp.err, PeerResp.ok 404 none none] =
      (false, freshState) :=
  resolve_error_handling.2.1 freshState [PeerResp.err, PeerResp.ok 404 none none] (by decide)

/-! ## Claim C1 -/

/-- C1 (amended): `resolve_conflicts` never writes the Persistence Store —
the durable record is the same object before and after, whatever the peers
answered — and an unsuccessful resolution leaves the whole state unchanged.
(The original claim — that a successful resolution rewrites the durable
record to match the adopted chain — is refuted by
`resolve_persistence_counterexample`.) -/
theorem resolve_leaves_persistence (st : State) (responses : List PeerResp) :
    (Blockchain.resolve_conflicts st responses).2.db = st.db ∧
    ((Blockchain.resolve_conflicts st responses).1 = false →
      (Blockchain.resolve_conflicts st responses).2 = st) := by
  unfold Blockchain.resolve_conflicts
  cases resolveLoop (st.chain.length : Int) none responses <;> simp

/-- Witness for C1's amended theorem at a concrete input: with no peers the
resolution fails and the state is returned as-is. -/
theorem resolve_leaves_persistence_witness :
    (Blockchain.resolve_conflicts freshState []).2 = freshState :=
  (resolve_leaves_persistence freshState []).2 rfl

/-- Counterexample to C1 as stated: on a fresh node, a successful resolution
(adopting the reported chain `[⟨3, 0, [], 7, "p"⟩]`) returns `true`, yet the
durable record still reloads as the old chain `[genesisB]`, different from
the new in-memory chain. -/
theorem resolve_persistence_counterexample :
    (Blockchain.resolve_conflicts freshState [.ok 200 (some 5) (some [⟨3, 0, [], 7, "p"⟩])]).1 =
      true ∧
    load_chain_from_db
        (Blockchain.resolve_conflicts freshState
          [.ok 200 (some 5) (some [⟨3, 0, [], 7, "p"⟩])]).2.db ≠
      (Blockchain.resolve_conflicts freshState
          [.ok 200 (some 5) (some [⟨3, 0, [], 7, "p"⟩])]).2.chain := by
  refine ⟨by decide, by decide⟩

/-! ## Claim C5 -/

/-- C5 (amended): on any state with a non-empty chain, `new_block` (with no
`previous_hash` argument, as the mining paths call it) succeeds and mints a
block whose `index` is `len(chain) + 1` (the source computes it from the
list length, not from the head block's `index` — see
`new_block_index_counterexample`), whose `transactions` are exactly the
pending pool in order, and whose `previous_hash` is the hash of the head
block; the pool is left empty, the block is appended and persisted. -/
theorem new_block_spec (st : State) (now proof : Int) (h : st.chain ≠ []) :
    Blockchain.new_block st now proof none =
      some (mintedBlock st now proof (Blockchain.hash (st.chain.getLast h)),
        { current_transactions := [],
          chain := st.chain ++ [mintedBlock st now proof (Blockchain.hash (st.chain.getLast h))],
          nodes := st.nodes,
          db := save_block st.db
            (mintedBlock st now proof (Blockchain.hash (st.chain.getLast h))) }) := by
  have hl : st.chain.getLast? = some (st.chain.getLast h) := List.getLast?_eq_getLast st.chain h
  simp [Blockchain.new_block, hl, mintedBlock]

/-- Witness for C5's amended theorem: minting on a fresh node produces the
expected block sealing the genesis block. -/
theorem new_block_spec_witness :
    Blockchain.new_block freshState 1 7 none =
      some (mintedBlock freshState 1 7 (Blockchain.hash genesisB),
        { current_transactions := [],
          chain := freshState.chain ++ [mintedBlock freshState 1 7 (Blockchain.hash genesisB)],
          nodes := freshState.nodes,
          db := save_block freshState.db
            (mintedBlock freshState 1 7 (Blockchain.hash genesisB)) }) :=
  new_block_spec freshState 1 7 (by decide)

/-- Counterexample to C5 as stated: on a (resolve-reachable) state whose
single block has `index = 5`, the minted block's `index` is `2`
(`len(chain) + 1`), not `head.index + 1 = 6`. -/
theorem new_block_index_counterexample :
    (Blockchain.new_block
        { current_transactions := [], chain := [⟨5, 0, [], 100, "1"⟩],
          nodes := [], db := emptyDB } 0 7 none).map (fun p => p.1.index) = some 2 ∧
    (2 : Int) ≠ 5 + 1 := by
  refine ⟨rfl, by decide⟩

/-! ## Claim C9 -/

/-- C9: startup policy.  A non-empty persisted store becomes the initial
chain verbatim — no genesis block is created and the store is untouched; an
empty store makes the node mint and immediately persist exactly one genesis
block `index=1, proof=100, previous_hash="1"`, so a fresh node's chain is
exactly `[genesis]` (length 1). -/
theorem startup_spec (db : DB) (now : Int) :
    (load_chain_from_db db ≠ [] →
      startup db now = some { current_transactions := [], chain := load_chain_from_db db,
                              nodes := [], db := db }) ∧
    (load_chain_from_db db = [] →
      startup db now =
        some { current_transactions := [],
               chain := [{ index := 1, timestamp := now, transactions := [], proof := 100,
                           previous_hash := "1" }],
               nodes := [],
               db := save_block db { index := 1, timestamp := now, transactions := [],
                                     proof := 100, previous_hash := "1" } }) := by
  constructor
  · intro h
    simp [startup, h]
  · intro h
    simp [startup, h, Blockchain.new_block]

/-- Witness for C9: starting from the empty store at time 0 yields exactly
the fresh one-block genesis state. -/
theorem startup_spec_witness : startup emptyDB 0 = some freshState :=
  (startup_spec emptyDB 0).2 rfl

/-! ## Claim C7 -/

theorem new_transaction_chain (st : State) (sender recipient : String) (amount : Int) :
    (Blockchain.new_transaction st sender recipient amount).2.chain = st.chain := rfl

theorem seqIdx_append (c : List Block) (b : Block) (hc : SeqIdx c)
    (hb : b.index = (c.length : Int) + 1) : SeqIdx (c ++ [b]) := by
  intro i h
  simp only [List.length_append, List.length_cons, List.length_nil] at h
  rcases Nat.lt_or_ge i c.length with hlt | hge
  · have := hc i hlt
    simpa [List.get_eq_getElem, List.getElem_append_left hlt] using this
  · have hi : i = c.length := by omega
    subst hi
    simpa [List.get_eq_getElem, List.getElem_append_right (Nat.le_refl _)] using hb

theorem startup_fresh_state (now : Int) :
    startup emptyDB now =
      some { current_transactions := [],
             chain := [{ index := 1, timestamp := now, transactions := [], proof := 100,
                         previous_hash := "1" }],
             nodes := [],
             db := { blocks := [⟨1, now, 100, "1"⟩], txs := [] } } := by
  simp [startup, load_chain_from_db, emptyDB, sortRows, Blockchain.new_block, save_block]

/-- C7 (amended): starting fresh and applying any sequence of
`new_transaction` and `new_block` operations (no `resolve_conflicts`), the
block at position `i` of the chain has index `i + 1`: indices stay 1-based
and strictly sequential.  (`resolve_conflicts` breaks this —
`reachable_seq_idx_counterexample`.) -/
theorem mine_only_reachable_seq_idx (st : State) (h : ReachableMine st) :
    SeqIdx st.chain := by
  induction h with
  | boot now st hs =>
    rw [startup_fresh_state now] at hs
    cases hs
    intro i hi
    simp only [List.length_cons, List.length_nil] at hi
    have : i = 0 := by omega
    subst this
    simp
  | tx st sender recipient amount hR ih =>
    rw [new_transaction_chain]
    exact ih
  | mine st now proof block st2 hR hnb ih =>
    cases hl : st.chain.getLast? with
    | none =>
      rw [Blockchain.new_block] at hnb
      simp [hl] at hnb
    | some lb =>
      rw [Blockchain.new_block] at hnb
      simp only [hl, Option.map_some, Option.some.injEq, Prod.mk.injEq] at hnb
      obtain ⟨hb, hst2⟩ := hnb
      exact seqIdx_append st.chain _ ih rfl

/-- Witness for C7's amended theorem: the fresh startup state (reachable
with no resolve step) has sequential indices. -/
theorem mine_only_reachable_seq_idx_witness : SeqIdx freshState.chain :=
  mine_only_reachable_seq_idx freshState (ReachableMine.boot 0 freshState rfl)

/-- Counterexample to C7 as stated: a fresh node that resolves against a
peer reporting `length = 5` with the single valid block `⟨7, 0, [], 1, "z"⟩`
reaches a state whose chain has a block of index 7 at position 0 — indices
are no longer `i + 1`. -/
theorem reachable_seq_idx_counterexample :
    Reachable { current_transactions := [], chain := [⟨7, 0, [], 1, "z"⟩], nodes := [],
                db := { blocks := [⟨1, 0, 100, "1"⟩], txs := [] } } ∧
    ¬ SeqIdx [(⟨7, 0, [], 1, "z"⟩ : Block)] := by
  constructor
  · have h0 : Reachable freshState := Reachable.boot 0 freshState rfl
    have h1 := Reachable.resolve freshState
      [.ok 200 (some 5) (some [⟨7, 0, [], 1, "z"⟩])] h0
    have h2 : (Blockchain.resolve_conflicts freshState
        [.ok 200 (some 5) (some [⟨7, 0, [], 1, "z"⟩])]).2 =
        { current_transactions := [], chain := [⟨7, 0, [], 1, "z"⟩], nodes := [],
          db := { blocks := [⟨1, 0, 100, "1"⟩], txs := [] } } := by decide
    rw [h2] at h1
    exact h1
  · intro h
    have := h 0 (by decide)
    exact absurd this (by decide)

/-! ## Claim C2 -/

theorem save_blocks_foldl (cs : List Block) : ∀ db : DB,
    (cs.foldl save_block db).blocks = db.blocks ++ cs.map rowOf := by
  induction cs with
  | nil => intro db; simp
  | cons b rest ih =>
    intro db
    simp [List.foldl_cons, ih, save_block, rowOf, List.append_assoc]

theorem save_txs_foldl (cs : List Block) : ∀ db : DB,
    (cs.foldl save_block db).txs = db.txs ++ (cs.map txRowsOf).flatten := by
  induction cs with
  | nil => intro db; simp
  | cons b rest ih =>
    intro db
    simp [List.foldl_cons, ih, save_block, txRowsOf, List.append_assoc]

theorem filter_txRowsOf (b : Block) (i : Int) :
    (txRowsOf b).filter (fun t => t.block_idx == i) =
      if b.index == i then txRowsOf b else [] := by
  unfold txRowsOf
  rw [List.filter_map]
  cases h : b.index == i <;> simp [Function.comp_def, h, List.filter_true]

theorem filter_flatten_tx (i : Int) : ∀ cs : List Block,
    (cs.map txRowsOf).flatten.filter (fun t => t.block_idx == i) =
      ((cs.filter (fun c => c.index == i)).map txRowsOf).flatten
  | [] => rfl
  | c :: rest => by
    simp only [List.map_cons, List.flatten_cons, List.filter_append, filter_txRowsOf,
      filter_flatten_tx i rest, List.filter_cons]
    cases h : c.index == i <;> simp [h]

theorem sortRows_of_pairwise (cs : List Block)
    (hp : cs.Pairwise (fun a b => a.index < b.index)) :
    sortRows (cs.map rowOf) = cs.map rowOf := by
  apply List.Sorted.insertionSort_eq
  exact List.pairwise_map.mpr (hp.imp (fun h => le_of_lt h))

theorem filter_single_of_pairwise : ∀ cs : List Block,
    cs.Pairwise (fun a b => a.index < b.index) →
    ∀ b ∈ cs, cs.filter (fun c => c.index == b.index) = [b] := by
  intro cs
  induction cs with
  | nil => intro _ b hb; simp at hb
  | cons c rest ih =>
    intro hp b hb
    obtain ⟨hhead, htail⟩ := List.pairwise_cons.mp hp
    rcases List.mem_cons.mp hb with hbc | hbr
    · subst hbc
      rw [List.filter_cons]
      simp only [beq_self_eq_true, if_true, ite_true, List.cons.injEq, true_and]
      rw [List.filter_eq_nil_iff]
      intro x hx
      have := hhead x hx
      simp only [beq_iff_eq]
      omega
    · have hbne : ¬ (c.index == b.index) = true := by
        have := hhead b hbr
        simp only [beq_iff_eq]
        omega
      rw [List.filter_cons, if_neg hbne]
      exact ih htail b hbr

theorem load_after_save (cs : List Block)
    (hp : cs.Pairwise (fun a b => a.index < b.index)) :
    load_chain_from_db (cs.foldl save_block emptyDB) = cs := by
  unfold load_chain_from_db
  have hb : (cs.foldl save_block emptyDB).blocks = cs.map rowOf := by
    rw [save_blocks_foldl cs emptyDB]; rfl
  have ht : (cs.foldl save_block emptyDB).txs = (cs.map txRowsOf).flatten := by
    rw [save_txs_foldl cs emptyDB]; rfl
  rw [hb, ht, sortRows_of_pairwise cs hp, List.map_map]
  conv_rhs => rw [← List.map_id cs]
  refine List.map_congr_left (fun b hbmem => ?_)
  simp only [Function.comp, rowOf, id]
  rw [filter_flatten_tx, filter_single_of_pairwise cs hp b hbmem]
  cases b with
  | mk i t txs p ph =>
    simp only [Block.mk.injEq, true_and, and_true]
    simp only [List.map_cons, List.map_nil, List.flatten_cons, List.flatten_nil,
      List.append_nil, txRowsOf, List.map_map]
    exact (List.map_congr_left (fun x _ => rfl)).trans (List.map_id txs)

/-- C2 (amended): saving a chain with strictly increasing block indices one
block at a time into an empty store and reloading reconstructs exactly the
same ordered chain (same block order, same transaction order, all fields
equal); persisting the reloaded chain again produces identical relation
contents; and the reloaded chain is `valid_chain` exactly when the saved one
was.  (The original claim asserted `is_valid` of every reloaded chain
unconditionally — refuted by `reload_validity_counterexample`.) -/
theorem persist_reload_roundtrip (cs : List Block)
    (hp : cs.Pairwise (fun a b => a.index < b.index)) :
    load_chain_from_db (cs.foldl save_block emptyDB) = cs ∧
    (load_chain_from_db (cs.foldl save_block emptyDB)).foldl save_block emptyDB =
      cs.foldl save_block emptyDB ∧
    Blockchain.valid_chain (load_chain_from_db (cs.foldl save_block emptyDB)) =
      Blockchain.valid_chain cs := by
  have h := load_after_save cs hp
  exact ⟨h, by rw [h], by rw [h]⟩

/-- Witness for C2's amended theorem: the hash-linked two-block chain
`[genesisB, blockB2]` round-trips through the store. -/
theorem persist_reload_roundtrip_witness :
    load_chain_from_db ([genesisB, blockB2].foldl save_block emptyDB) = [genesisB, blockB2] :=
  (persist_reload_roundtrip [genesisB, blockB2] (by decide)).1

/-- Counterexample to C2 as stated: the two-block chain whose second block
carries `previous_hash = "nope"` is saved block-by-block and reloads exactly
(the round-trip holds), yet the reloaded chain fails `is_valid` — loading
cannot repair a chain that was never valid. -/
theorem reload_validity_counterexample :
    load_chain_from_db ([genesisB, ⟨2, 0, [], 0, "nope"⟩].foldl save_block emptyDB) =
      [genesisB, ⟨2, 0, [], 0, "nope"⟩] ∧
    Blockchain.valid_chain
        (load_chain_from_db ([genesisB, ⟨2, 0, [], 0, "nope"⟩].foldl save_block emptyDB)) =
      false := by
  refine ⟨by decide, by decide⟩
